import Mathlib

/-!
Verification of the CasperLabs `common` crate's key/value data model:
the `AccessRights` lattice, the `Key` and `Value` tagged unions, and their
canonical binary codec.  Definitions are shallow embeddings of
`src/execution-engine/common/src/key.rs` and
`src/execution-engine/common/src/value/mod.rs`.  The `bytesrepr` primitive
codecs, the fixed-width unsigned integers and the opaque `Account`/`Contract`
records are not part of the given sources; they are modelled from the spec
(each such definition is marked `Modelled from the spec:`).

Machine bytes are modelled as `Nat` (well-formed data keeps them below 256;
the codec never depends on that bound for round-tripping).  Rust `usize`
arithmetic in the overflow guards is modelled on `Nat` with the concrete
64-bit constants the source compares against.
-/

/-- The seven capability levels of `key.rs` (`enum AccessRights`). -/
inductive AccessRights where
  | Eqv
  | Read
  | Write
  | Add
  | ReadAdd
  | ReadWrite
  | AddWrite
deriving DecidableEq, Repr, Fintype

/-- Translation of `impl Add for AccessRights` in `key.rs` (the
"widen"/merge operation), clause for clause. -/
def AccessRights.add : AccessRights → AccessRights → AccessRights
  | .Eqv, other => other
  | s, .Eqv => s
  | .Read, .Read => .Read
  | .Write, .Write => .Write
  | .Add, .Add => .Add
  | .ReadAdd, .ReadAdd => .ReadAdd
  | .ReadWrite, .ReadWrite => .ReadWrite
  | .AddWrite, .AddWrite => .AddWrite
  | .Read, .Write | .Write, .Read => .ReadWrite
  | .Read, .Add | .Add, .Read => .ReadAdd
  | .Write, .Add | .Add, .Write => .AddWrite
  | .ReadAdd, .AddWrite | .AddWrite, .ReadAdd => .ReadWrite
  | .ReadWrite, .AddWrite | .AddWrite, .ReadWrite => .ReadWrite
  | .Read, .AddWrite | .AddWrite, .Read => .ReadWrite
  | .Write, .ReadAdd | .ReadAdd, .Write => .ReadWrite
  | .Add, .ReadWrite | .ReadWrite, .Add => .ReadWrite
  | .ReadAdd, .ReadWrite | .ReadWrite, .ReadAdd => .ReadWrite
  | .Read, .ReadAdd | .ReadAdd, .Read => .ReadAdd
  | .Read, .ReadWrite | .ReadWrite, .Read => .ReadWrite
  | .Write, .ReadWrite | .ReadWrite, .Write => .ReadWrite
  | .Write, .AddWrite | .AddWrite, .Write => .AddWrite
  | .Add, .ReadAdd | .ReadAdd, .Add => .ReadAdd
  | .Add, .AddWrite | .AddWrite, .Add => .AddWrite

/-- Translation of `impl PartialOrd for AccessRights` in `key.rs`: the
hand-written `partial_cmp`, translated arm by arm in the source's order (the
source warns "Do not reorder"; Lean's `match` is first-match like Rust's).
Here `none` is Rust's `None`, i.e. "incomparable". -/
def AccessRights.partial_cmp : AccessRights → AccessRights → Option Ordering
  | .Eqv, .Eqv => some .eq
  | .Eqv, _ => some .lt
  | _, .Eqv => some .gt
  | .Read, .Write => none
  | .Write, .Read => none
  | .Read, .Add => none
  | .Add, .Read => none
  | .Read, .ReadAdd => some .lt
  | .ReadAdd, .Read => some .gt
  | .Read, .ReadWrite => some .lt
  | .ReadWrite, .Read => some .gt
  | .Write, .Add => none
  | .Add, .Write => none
  | .Read, .AddWrite => none
  | .Add, .AddWrite => some .lt
  | .Write, .AddWrite => some .lt
  | .ReadAdd, .AddWrite => none
  | .ReadWrite, .AddWrite => none
  | .AddWrite, .Read => none
  | .AddWrite, .Add => some .gt
  | .AddWrite, .Write => some .gt
  | .AddWrite, .ReadAdd => none
  | .AddWrite, .ReadWrite => none
  | .Write, .ReadWrite => some .lt
  | .ReadWrite, .Write => some .gt
  | .Add, .ReadAdd => some .lt
  | .ReadAdd, .Add => some .gt
  | .Add, .ReadWrite => some .lt
  | .ReadWrite, .Add => some .gt
  | .Write, .ReadAdd => none
  | .ReadAdd, .Write => none
  | .ReadAdd, .ReadWrite => none
  | .ReadWrite, .ReadAdd => none
  | a, b => if a = b then some .eq else none

/-- Upper-bound relation of the hand-written partial order: `c ≥ a` in the
sense of Rust's `PartialOrd::ge`, i.e. `partial_cmp` yields `Greater` or
`Equal`. -/
def AccessRights.geq (c a : AccessRights) : Prop :=
  c.partial_cmp a = some .gt ∨ c.partial_cmp a = some .eq

instance (c a : AccessRights) : Decidable (c.geq a) := by
  unfold AccessRights.geq; infer_instance

/-- The sixteen ordered pairs on which the source's `partial_cmp` returns
`None`: the seven unordered pairs the spec lists, both ways around, plus
`ReadAdd`/`ReadWrite` both ways around. -/
def incomparablePairs : List (AccessRights × AccessRights) :=
  [(.Read, .Write), (.Write, .Read),
   (.Read, .Add), (.Add, .Read),
   (.Read, .AddWrite), (.AddWrite, .Read),
   (.Write, .Add), (.Add, .Write),
   (.Write, .ReadAdd), (.ReadAdd, .Write),
   (.ReadAdd, .AddWrite), (.AddWrite, .ReadAdd),
   (.ReadWrite, .AddWrite), (.AddWrite, .ReadWrite),
   (.ReadAdd, .ReadWrite), (.ReadWrite, .ReadAdd)]

/-- Byte sequences: Rust `Vec<u8>` / `&[u8]`.  Bytes are `Nat` (well-formed
data keeps them `< 256`). -/
abbrev Bytes := List Nat

deriving instance DecidableEq for Except

/-- Modelled from the spec: the `bytesrepr::Error` taxonomy of §7
(`EarlyEnd`, `Formatting`, `OutOfMemory`); the module itself is outside the
given sources. -/
inductive BytesreprError where
  | earlyEndOfStream
  | formattingError
  | outOfMemoryError
deriving DecidableEq, Repr

/-- Size constant `U8_SIZE` used by the sources (one byte). -/
def U8_SIZE : Nat := 1

/-- Size constant `U32_SIZE` used by the sources (four bytes). -/
def U32_SIZE : Nat := 4

/-- Size constant `N32` of `bytesrepr` (a 32-byte field). -/
def N32 : Nat := 32

/-- Size constant `KEY_ID_SIZE` of `key.rs` (the one-byte variant tag). -/
def KEY_ID_SIZE : Nat := 1

/-- Size constant `ACCESS_RIGHTS_SIZE` of `key.rs` (one tag byte). -/
def ACCESS_RIGHTS_SIZE : Nat := 1

/-- Size constant `UREF_SIZE` of `key.rs`:
`U32_SIZE + N32 + KEY_ID_SIZE + ACCESS_RIGHTS_SIZE = 38`. -/
def UREF_SIZE : Nat := U32_SIZE + N32 + KEY_ID_SIZE + ACCESS_RIGHTS_SIZE

/-- The value `u32::max_value() as usize` that the overflow guards compare
against. -/
def u32Max : Nat := 4294967295

/-- Modelled from the spec: little-endian fixed-width encoding of an
unsigned integer into `w` raw bytes (§4.1 "fixed-width integers ... encode as
their raw bytes, fixed length"); the byte order is the single pinned one of
§6.  Values `≥ 256^w` wrap, matching Rust `as` truncation. -/
def natToLE : Nat → Nat → Bytes
  | 0, _ => []
  | w + 1, n => n % 256 :: natToLE w (n / 256)

/-- Modelled from the spec: recomposition of a little-endian byte sequence
into the unsigned integer it denotes. -/
def leToNat : Bytes → Nat
  | [] => 0
  | b :: bs => b + 256 * leToNat bs

/-- Modelled from the spec: reading a fixed-width `n`-byte field from the
front of the stream; `EarlyEnd` when fewer than `n` bytes remain (§4.1). -/
def readN (n : Nat) (bs : Bytes) : Except BytesreprError (Bytes × Bytes) :=
  if n ≤ bs.length then .ok (bs.take n, bs.drop n) else .error .earlyEndOfStream

/-- Modelled from the spec: `u32::to_bytes` of `bytesrepr` — four raw
little-endian bytes. -/
def u32_to_bytes (n : Nat) : Bytes := natToLE 4 n

/-- Modelled from the spec: `u32::from_bytes` of `bytesrepr` — reads four
bytes and recomposes them. -/
def u32_from_bytes (bs : Bytes) : Except BytesreprError (Nat × Bytes) :=
  match readN 4 bs with
  | .error e => .error e
  | .ok (chunk, rest) => .ok (leToNat chunk, rest)

/-- Modelled from the spec: `i32::to_bytes` of `bytesrepr` — the four
little-endian bytes of the two's-complement representation. -/
def i32_to_bytes (i : Int) : Bytes := natToLE 4 (i % 4294967296).toNat

/-- Modelled from the spec: `i32::from_bytes` of `bytesrepr` — reads four
bytes and reinterprets the unsigned value as two's complement. -/
def i32_from_bytes (bs : Bytes) : Except BytesreprError (Int × Bytes) :=
  match readN 4 bs with
  | .error e => .error e
  | .ok (chunk, rest) =>
      let n := leToNat chunk
      .ok (if n < 2147483648 then (n : Int) else (n : Int) - 4294967296, rest)

/-- Modelled from the spec: `Vec<u8>::to_bytes` of `bytesrepr` — §4.1's
variable-length-sequence convention (4-byte element-count prefix, then the
raw bytes) with the overflow guard rejecting counts within the
length-prefix overhead of `u32::MAX`. -/
def vecU8_to_bytes (arr : Bytes) : Except BytesreprError Bytes :=
  if u32Max - U32_SIZE ≤ arr.length then .error .outOfMemoryError
  else .ok (u32_to_bytes arr.length ++ arr)

/-- Modelled from the spec: `Vec<u8>::from_bytes` of `bytesrepr` — reads the
4-byte count, then exactly that many bytes (`EarlyEnd` when the stream is
exhausted early). -/
def vecU8_from_bytes (bs : Bytes) : Except BytesreprError (Bytes × Bytes) :=
  match u32_from_bytes bs with
  | .error e => .error e
  | .ok (n, rest) => readN n rest

/-- Modelled from the spec: `String::to_bytes` of `bytesrepr` — a Rust
string encodes as its length-prefixed UTF-8 bytes (§4.4); strings are
modelled by their UTF-8 byte sequences, so this coincides with the `Vec<u8>`
convention. -/
def string_to_bytes (s : Bytes) : Except BytesreprError Bytes :=
  if u32Max - U32_SIZE ≤ s.length then .error .outOfMemoryError
  else .ok (u32_to_bytes s.length ++ s)

/-- Modelled from the spec: `String::from_bytes` of `bytesrepr` — reads the
4-byte length, then that many UTF-8 bytes. -/
def string_from_bytes (bs : Bytes) : Except BytesreprError (Bytes × Bytes) :=
  match u32_from_bytes bs with
  | .error e => .error e
  | .ok (n, rest) => readN n rest

/-- Modelled from the spec: the decode loop of `bytesrepr`'s generic vector
decoding — decodes exactly `n` elements sequentially, each consuming its own
prefix of the stream (§4.1). -/
def decodeList {α : Type} (dec : Bytes → Except BytesreprError (α × Bytes)) :
    Nat → Bytes → Except BytesreprError (List α × Bytes)
  | 0, bs => .ok ([], bs)
  | n + 1, bs =>
      match dec bs with
      | .error e => .error e
      | .ok (x, rest) =>
          match decodeList dec n rest with
          | .error e => .error e
          | .ok (xs, rest2) => .ok (x :: xs, rest2)

/-- Modelled from the spec: the encode half of `bytesrepr`'s generic vector
convention — encodes each element in order and concatenates the results,
propagating the first failure (Rust's `map(to_bytes).collect::<Result>`). -/
def encodeAll {α : Type} (enc : α → Except BytesreprError Bytes) :
    List α → Except BytesreprError Bytes
  | [] => .ok []
  | x :: xs =>
      match enc x with
      | .error e => .error e
      | .ok b =>
          match encodeAll enc xs with
          | .error e => .error e
          | .ok rest => .ok (b ++ rest)

/-- Modelled from the spec: `Vec<i32>::to_bytes` of `bytesrepr` — 4-byte
count prefix, then each element's fixed-width encoding, with the sequence
overflow guard. -/
def vecI32_to_bytes (arr : List Int) : Except BytesreprError Bytes :=
  if u32Max - U32_SIZE ≤ arr.length then .error .outOfMemoryError
  else .ok (u32_to_bytes arr.length ++ (arr.map i32_to_bytes).flatten)

/-- Modelled from the spec: `Vec<i32>::from_bytes` of `bytesrepr`. -/
def vecI32_from_bytes (bs : Bytes) : Except BytesreprError (List Int × Bytes) :=
  match u32_from_bytes bs with
  | .error e => .error e
  | .ok (n, rest) => decodeList i32_from_bytes n rest

/-- Modelled from the spec: `Vec<String>::to_bytes` of `bytesrepr` — 4-byte
count prefix, then each string's own length-prefixed encoding, with the
sequence overflow guard. -/
def vecString_to_bytes (arr : List Bytes) : Except BytesreprError Bytes :=
  if u32Max - U32_SIZE ≤ arr.length then .error .outOfMemoryError
  else
    match encodeAll string_to_bytes arr with
    | .error e => .error e
    | .ok payload => .ok (u32_to_bytes arr.length ++ payload)

/-- Modelled from the spec: `Vec<String>::from_bytes` of `bytesrepr`. -/
def vecString_from_bytes (bs : Bytes) :
    Except BytesreprError (List Bytes × Bytes) :=
  match u32_from_bytes bs with
  | .error e => .error e
  | .ok (n, rest) => decodeList string_from_bytes n rest

/-- Translation of `impl ToBytes for AccessRights` in `key.rs`: a single tag
byte, values 1 through 7 (`1u8.to_bytes()` etc. never fails, so the encoding
is total). -/
def AccessRights.to_bytes : AccessRights → Bytes
  | .Eqv => [1]
  | .Read => [2]
  | .Add => [3]
  | .Write => [4]
  | .ReadAdd => [5]
  | .ReadWrite => [6]
  | .AddWrite => [7]

/-- Translation of `impl FromBytes for AccessRights` in `key.rs`: read one
byte; tags 1-7 map to the variants, anything else is `FormattingError`. -/
def AccessRights.from_bytes :
    Bytes → Except BytesreprError (AccessRights × Bytes)
  | [] => .error .earlyEndOfStream
  | id :: rest =>
      if id = 1 then .ok (.Eqv, rest)
      else if id = 2 then .ok (.Read, rest)
      else if id = 3 then .ok (.Add, rest)
      else if id = 4 then .ok (.Write, rest)
      else if id = 5 then .ok (.ReadAdd, rest)
      else if id = 6 then .ok (.ReadWrite, rest)
      else if id = 7 then .ok (.AddWrite, rest)
      else .error .formattingError

/-- The three-variant `enum Key` of `key.rs`.  The fixed-width id arrays
(`[u8; 20]`, `[u8; 32]`) are modelled as byte lists; well-formed keys (those
expressible in Rust) have ids of the right length, captured by `keyWF`. -/
inductive Key where
  | Account (addr : Bytes)
  | Hash (h : Bytes)
  | URef (rf : Bytes) (rights : AccessRights)
deriving DecidableEq, Repr

/-- Rust type invariant of `Key`: `Account` carries 20 bytes, `Hash` and
`URef` carry 32. -/
def keyWF : Key → Bool
  | .Account addr => addr.length == 20
  | .Hash h => h.length == 32
  | .URef rf _ => rf.length == 32

/-- Translation of Rust's derived lexicographic `Ord` on fixed-size byte
arrays (`id_1.cmp(id_2)`), which `impl Ord for Key` delegates to: pointwise
comparison, first difference decides, length as tie-break (equal-length
arrays never reach the tie-break). -/
def cmpBytes : Bytes → Bytes → Ordering
  | [], [] => .eq
  | [], _ :: _ => .lt
  | _ :: _, [] => .gt
  | a :: as', b :: bs' =>
      if a < b then .lt else if b < a then .gt else cmpBytes as' bs'

/-- Translation of `impl Ord for Key` in `key.rs`: variant rank
`Account < Hash < URef`, ids compared lexicographically, and the
`AccessRights` of a `URef` deliberately ignored. -/
def Key.cmp : Key → Key → Ordering
  | .Account id1, .Account id2 => cmpBytes id1 id2
  | .Account _, .Hash _ => .lt
  | .Account _, .URef _ _ => .lt
  | .Hash id1, .Hash id2 => cmpBytes id1 id2
  | .Hash _, .URef _ _ => .lt
  | .Hash _, .Account _ => .gt
  | .URef id1 _, .URef id2 _ => cmpBytes id1 id2
  | .URef _ _, .Account _ => .gt
  | .URef _ _, .Hash _ => .gt

/-- Translation of `impl ToBytes for Key` in `key.rs`: tag byte 0/1/2, then
a length-prefixed 20-byte id for `Account`, the raw 32-byte id for `Hash`,
and the raw 32-byte id plus the `AccessRights` tag byte for `URef`.  All
inner encodings are total, so every branch is `Ok`. -/
def Key.to_bytes : Key → Except BytesreprError Bytes
  | .Account addr => .ok (0 :: (u32_to_bytes 20 ++ addr))
  | .Hash h => .ok (1 :: h)
  | .URef rf rights => .ok (2 :: (rf ++ rights.to_bytes))

/-- Translation of `impl FromBytes for Key` in `key.rs`: dispatch on the tag
byte; `Account` reads a length-prefixed byte vector and rejects lengths
other than 20 with `FormattingError`; `Hash` reads 32 raw bytes; `URef`
reads 32 raw bytes then an `AccessRights`; an unknown tag is
`FormattingError`. -/
def Key.from_bytes : Bytes → Except BytesreprError (Key × Bytes)
  | [] => .error .earlyEndOfStream
  | id :: rest =>
      if id = 0 then
        match vecU8_from_bytes rest with
        | .error e => .error e
        | .ok (addr, rem) =>
            if addr.length ≠ 20 then .error .formattingError
            else .ok (.Account addr, rem)
      else if id = 1 then
        match readN 32 rest with
        | .error e => .error e
        | .ok (h, rem) => .ok (.Hash h, rem)
      else if id = 2 then
        match readN 32 rest with
        | .error e => .error e
        | .ok (rf, rem) =>
            match AccessRights.from_bytes rem with
            | .error e => .error e
            | .ok (rights, rem2) => .ok (.URef rf rights, rem2)
      else .error .formattingError

/-- Modelled from the spec: the opaque `Account` record of `value/account.rs`
(outside the given sources), a black box that satisfies the codec protocol
(§6); its payload is its self-delimiting encoded form. -/
structure AccountRecord where
  payload : Bytes
deriving DecidableEq, Repr

/-- Modelled from the spec: the opaque `Account` codec — a single
self-delimiting sub-encoding blob (§4.4), modelled as the length-prefixed
payload with the sequence overflow guard of §4.1. -/
def AccountRecord.to_bytes (a : AccountRecord) : Except BytesreprError Bytes :=
  if u32Max - U32_SIZE ≤ a.payload.length then .error .outOfMemoryError
  else .ok (u32_to_bytes a.payload.length ++ a.payload)

/-- Modelled from the spec: the opaque `Account` decoder. -/
def AccountRecord.from_bytes (bs : Bytes) :
    Except BytesreprError (AccountRecord × Bytes) :=
  match vecU8_from_bytes bs with
  | .error e => .error e
  | .ok (p, rem) => .ok (⟨p⟩, rem)

/-- Modelled from the spec: the opaque `Contract` record of
`value/contract.rs` (outside the given sources). -/
structure ContractRecord where
  payload : Bytes
deriving DecidableEq, Repr

/-- Modelled from the spec: the opaque `Contract` codec, a self-delimiting
blob like the `Account` one. -/
def ContractRecord.to_bytes (c : ContractRecord) : Except BytesreprError Bytes :=
  if u32Max - U32_SIZE ≤ c.payload.length then .error .outOfMemoryError
  else .ok (u32_to_bytes c.payload.length ++ c.payload)

/-- Modelled from the spec: the opaque `Contract` decoder. -/
def ContractRecord.from_bytes (bs : Bytes) :
    Except BytesreprError (ContractRecord × Bytes) :=
  match vecU8_from_bytes bs with
  | .error e => .error e
  | .ok (p, rem) => .ok (⟨p⟩, rem)

/-- The eleven-variant `enum Value` of `value/mod.rs`.  The `U128`/`U256`/
`U512` payloads are the opaque fixed-width unsigned integers (modelled as
`Nat` below their width bound, per §1); `String` payloads are UTF-8 byte
sequences. -/
inductive Value where
  | Int32 (i : Int)
  | UInt128 (n : Nat)
  | UInt256 (n : Nat)
  | UInt512 (n : Nat)
  | ByteArray (arr : Bytes)
  | ListInt32 (arr : List Int)
  | String (s : Bytes)
  | ListString (arr : List Bytes)
  | NamedKey (n : Bytes) (k : Key)
  | Account (a : AccountRecord)
  | Contract (c : ContractRecord)
deriving DecidableEq, Repr

/-- Modelled from the spec: the fixed-width `U128` codec of `value/uint.rs`
(outside the given sources) — 16 raw little-endian bytes (§1, §4.4). -/
def u128_to_bytes (n : Nat) : Bytes := natToLE 16 n

/-- Modelled from the spec: the `U128` decoder — reads 16 bytes. -/
def u128_from_bytes (bs : Bytes) : Except BytesreprError (Nat × Bytes) :=
  match readN 16 bs with
  | .error e => .error e
  | .ok (chunk, rest) => .ok (leToNat chunk, rest)

/-- Modelled from the spec: the fixed-width `U256` codec — 32 raw
little-endian bytes. -/
def u256_to_bytes (n : Nat) : Bytes := natToLE 32 n

/-- Modelled from the spec: the `U256` decoder — reads 32 bytes. -/
def u256_from_bytes (bs : Bytes) : Except BytesreprError (Nat × Bytes) :=
  match readN 32 bs with
  | .error e => .error e
  | .ok (chunk, rest) => .ok (leToNat chunk, rest)

/-- Modelled from the spec: the fixed-width `U512` codec — 64 raw
little-endian bytes. -/
def u512_to_bytes (n : Nat) : Bytes := natToLE 64 n

/-- Modelled from the spec: the `U512` decoder — reads 64 bytes. -/
def u512_from_bytes (bs : Bytes) : Except BytesreprError (Nat × Bytes) :=
  match readN 64 bs with
  | .error e => .error e
  | .ok (chunk, rest) => .ok (leToNat chunk, rest)

/-- Translation of `impl ToBytes for Value` in `value/mod.rs`, branch by
branch, keeping each branch's guard and its position relative to the inner
encoding calls (the `Account` and `ListString` branches run the inner
encoder before their guard, as the source does). -/
def Value.to_bytes : Value → Except BytesreprError Bytes
  | .Int32 i => .ok (0 :: i32_to_bytes i)
  | .UInt128 u => .ok (8 :: u128_to_bytes u)
  | .UInt256 u => .ok (9 :: u256_to_bytes u)
  | .UInt512 u => .ok (10 :: u512_to_bytes u)
  | .ByteArray arr =>
      if u32Max - U8_SIZE - U32_SIZE ≤ arr.length then .error .outOfMemoryError
      else
        match vecU8_to_bytes arr with
        | .error e => .error e
        | .ok bs => .ok (1 :: bs)
  | .ListInt32 arr =>
      if u32Max - U8_SIZE - U32_SIZE ≤ arr.length * 4 then
        .error .outOfMemoryError
      else
        match vecI32_to_bytes arr with
        | .error e => .error e
        | .ok bs => .ok (2 :: bs)
  | .String s =>
      if u32Max - U8_SIZE - U32_SIZE ≤ s.length then .error .outOfMemoryError
      else
        match string_to_bytes s with
        | .error e => .error e
        | .ok bs => .ok (3 :: bs)
  | .Account a =>
      match a.to_bytes with
      | .error e => .error e
      | .ok bs =>
          if u32Max - 1 ≤ bs.length then .error .outOfMemoryError
          else .ok (4 :: bs)
  | .Contract c =>
      match c.to_bytes with
      | .error e => .error e
      | .ok bs => .ok (5 :: bs)
  | .NamedKey n k =>
      if u32Max - U32_SIZE - U8_SIZE ≤ n.length + UREF_SIZE then
        .error .outOfMemoryError
      else
        match string_to_bytes n with
        | .error e => .error e
        | .ok nb =>
            match k.to_bytes with
            | .error e => .error e
            | .ok kb => .ok (6 :: (nb ++ kb))
  | .ListString arr =>
      match vecString_to_bytes arr with
      | .error e => .error e
      | .ok bs =>
          if u32Max - 1 ≤ bs.length then .error .outOfMemoryError
          else .ok (7 :: bs)

/-- Translation of `impl FromBytes for Value` in `value/mod.rs`: dispatch on
the tag byte 0-10; an unrecognized tag is `FormattingError`. -/
def Value.from_bytes : Bytes → Except BytesreprError (Value × Bytes)
  | [] => .error .earlyEndOfStream
  | id :: rest =>
      if id = 0 then
        match i32_from_bytes rest with
        | .error e => .error e
        | .ok (i, rem) => .ok (.Int32 i, rem)
      else if id = 8 then
        match u128_from_bytes rest with
        | .error e => .error e
        | .ok (u, rem) => .ok (.UInt128 u, rem)
      else if id = 9 then
        match u256_from_bytes rest with
        | .error e => .error e
        | .ok (u, rem) => .ok (.UInt256 u, rem)
      else if id = 10 then
        match u512_from_bytes rest with
        | .error e => .error e
        | .ok (u, rem) => .ok (.UInt512 u, rem)
      else if id = 1 then
        match vecU8_from_bytes rest with
        | .error e => .error e
        | .ok (arr, rem) => .ok (.ByteArray arr, rem)
      else if id = 2 then
        match vecI32_from_bytes rest with
        | .error e => .error e
        | .ok (arr, rem) => .ok (.ListInt32 arr, rem)
      else if id = 3 then
        match string_from_bytes rest with
        | .error e => .error e
        | .ok (s, rem) => .ok (.String s, rem)
      else if id = 4 then
        match AccountRecord.from_bytes rest with
        | .error e => .error e
        | .ok (a, rem) => .ok (.Account a, rem)
      else if id = 5 then
        match ContractRecord.from_bytes rest with
        | .error e => .error e
        | .ok (c, rem) => .ok (.Contract c, rem)
      else if id = 6 then
        match string_from_bytes rest with
        | .error e => .error e
        | .ok (name, rem1) =>
            match Key.from_bytes rem1 with
            | .error e => .error e
            | .ok (key, rem2) => .ok (.NamedKey name key, rem2)
      else if id = 7 then
        match vecString_from_bytes rest with
        | .error e => .error e
        | .ok (arr, rem) => .ok (.ListString arr, rem)
      else .error .formattingError

/-- Diagnostic-label strings: the Rust `String` values produced by
`Value::type_string` and carried by the `TryFrom` errors.  These are
modelled by Lean strings (their text matters to the claims), unlike the
`Value::String` payloads, which the codec treats as UTF-8 byte sequences. -/
abbrev RustStr := String

/-- Translation of `Value::type_string` in `value/mod.rs`: the fixed
diagnostic label of each variant. -/
def Value.type_string : Value → RustStr
  | .Int32 _ => "Int32"
  | .UInt128 _ => "UInt128"
  | .UInt256 _ => "UInt256"
  | .UInt512 _ => "UInt512"
  | .ListInt32 _ => "List[Int32]"
  | .String _ => "String"
  | .ByteArray _ => "ByteArray"
  | .Account _ => "Account"
  | .Contract _ => "Contract"
  | .NamedKey _ _ => "NamedKey"
  | .ListString _ => "List[String]"

/-- Translation of `impl From<i32> for Value` (from `from_try_from_impl!`):
wrapping never fails. -/
def Value.from_i32 (x : Int) : Value := .Int32 x

/-- Translation of `impl TryFrom<Value> for i32`: the payload when the
variant matches, otherwise `Err(v.type_string())`. -/
def Value.try_from_i32 (v : Value) : Except RustStr Int :=
  match v with
  | .Int32 x => .ok x
  | _ => .error v.type_string

/-- Translation of `impl From<U128> for Value`. -/
def Value.from_u128 (x : Nat) : Value := .UInt128 x

/-- Translation of `impl TryFrom<Value> for U128`. -/
def Value.try_from_u128 (v : Value) : Except RustStr Nat :=
  match v with
  | .UInt128 x => .ok x
  | _ => .error v.type_string

/-- Translation of `impl From<U256> for Value`. -/
def Value.from_u256 (x : Nat) : Value := .UInt256 x

/-- Translation of `impl TryFrom<Value> for U256`. -/
def Value.try_from_u256 (v : Value) : Except RustStr Nat :=
  match v with
  | .UInt256 x => .ok x
  | _ => .error v.type_string

/-- Translation of `impl From<U512> for Value`. -/
def Value.from_u512 (x : Nat) : Value := .UInt512 x

/-- Translation of `impl TryFrom<Value> for U512`. -/
def Value.try_from_u512 (v : Value) : Except RustStr Nat :=
  match v with
  | .UInt512 x => .ok x
  | _ => .error v.type_string

/-- Translation of `impl From<Vec<u8>> for Value`. -/
def Value.from_vec_u8 (x : Bytes) : Value := .ByteArray x

/-- Translation of `impl TryFrom<Value> for Vec<u8>`. -/
def Value.try_from_vec_u8 (v : Value) : Except RustStr Bytes :=
  match v with
  | .ByteArray x => .ok x
  | _ => .error v.type_string

/-- Translation of `impl From<Vec<i32>> for Value`. -/
def Value.from_vec_i32 (x : List Int) : Value := .ListInt32 x

/-- Translation of `impl TryFrom<Value> for Vec<i32>`. -/
def Value.try_from_vec_i32 (v : Value) : Except RustStr (List Int) :=
  match v with
  | .ListInt32 x => .ok x
  | _ => .error v.type_string

/-- Translation of `impl From<Vec<String>> for Value`. -/
def Value.from_vec_string (x : List Bytes) : Value := .ListString x

/-- Translation of `impl TryFrom<Value> for Vec<String>`. -/
def Value.try_from_vec_string (v : Value) : Except RustStr (List Bytes) :=
  match v with
  | .ListString x => .ok x
  | _ => .error v.type_string

/-- Translation of `impl From<String> for Value`. -/
def Value.from_string (x : Bytes) : Value := .String x

/-- Translation of `impl TryFrom<Value> for String`. -/
def Value.try_from_string (v : Value) : Except RustStr Bytes :=
  match v with
  | .String x => .ok x
  | _ => .error v.type_string

/-- Translation of `impl From<Account> for Value`. -/
def Value.from_account (x : AccountRecord) : Value := .Account x

/-- Translation of `impl TryFrom<Value> for Account`. -/
def Value.try_from_account (v : Value) : Except RustStr AccountRecord :=
  match v with
  | .Account x => .ok x
  | _ => .error v.type_string

/-- Translation of `impl From<Contract> for Value`. -/
def Value.from_contract (x : ContractRecord) : Value := .Contract x

/-- Translation of `impl TryFrom<Value> for Contract`. -/
def Value.try_from_contract (v : Value) : Except RustStr ContractRecord :=
  match v with
  | .Contract x => .ok x
  | _ => .error v.type_string

/-- Translation of `impl From<(String, Key)> for Value`. -/
def Value.from_string_key (t : Bytes × Key) : Value := .NamedKey t.1 t.2

/-- Translation of `impl TryFrom<Value> for (String, Key)` in
`value/mod.rs`: its associated error type is the unit type `()`, so a
mismatch yields `Err(())` — no `type_string` is reported. -/
def Value.try_from_string_key (v : Value) : Except Unit (Bytes × Key) :=
  match v with
  | .NamedKey n k => .ok (n, k)
  | _ => .error ()

/-- Range invariant of Rust `i32` payloads. -/
def i32Ok (i : Int) : Bool := decide (-2147483648 ≤ i ∧ i < 2147483648)

/-- Rust type invariant of `Value`: `i32` payloads are in range, the opaque
unsigned integers are below their width bound, and embedded keys are
well-formed.  These are exactly the constraints the Rust types enforce
statically. -/
def valueWF : Value → Bool
  | .Int32 i => i32Ok i
  | .UInt128 n => decide (n < 2 ^ 128)
  | .UInt256 n => decide (n < 2 ^ 256)
  | .UInt512 n => decide (n < 2 ^ 512)
  | .ByteArray _ => true
  | .ListInt32 arr => arr.all i32Ok
  | .String _ => true
  | .ListString _ => true
  | .NamedKey _ k => keyWF k
  | .Account _ => true
  | .Contract _ => true

theorem natToLE_length : ∀ (w n : Nat), (natToLE w n).length = w
  | 0, _ => rfl
  | w + 1, n => by simp [natToLE, natToLE_length w]

theorem leToNat_natToLE : ∀ (w n : Nat), leToNat (natToLE w n) = n % 256 ^ w
  | 0, n => by simp [natToLE, leToNat, Nat.mod_one]
  | w + 1, n => by
      rw [natToLE, leToNat, leToNat_natToLE w, Nat.pow_succ']
      rw [Nat.mod_mul]

theorem readN_append (l r : Bytes) : readN l.length (l ++ r) = .ok (l, r) := by
  unfold readN
  rw [if_pos (by simp)]
  simp

theorem u32_rt (n : Nat) (r : Bytes) (h : n < 4294967296) :
    u32_from_bytes (u32_to_bytes n ++ r) = .ok (n, r) := by
  unfold u32_from_bytes u32_to_bytes
  have h4 : readN 4 (natToLE 4 n ++ r) = .ok (natToLE 4 n, r) := by
    have := readN_append (natToLE 4 n) r
    rwa [natToLE_length] at this
  rw [h4]
  show Except.ok (leToNat (natToLE 4 n), r) = Except.ok (n, r)
  have h256 : (256 : Nat) ^ 4 = 4294967296 := by norm_num
  rw [leToNat_natToLE, h256, Nat.mod_eq_of_lt h]

theorem i32_rt (i : Int) (r : Bytes) (h1 : -2147483648 ≤ i)
    (h2 : i < 2147483648) :
    i32_from_bytes (i32_to_bytes i ++ r) = .ok (i, r) := by
  unfold i32_from_bytes i32_to_bytes
  have h4 : readN 4 (natToLE 4 (i % 4294967296).toNat ++ r) =
      .ok (natToLE 4 (i % 4294967296).toNat, r) := by
    have := readN_append (natToLE 4 (i % 4294967296).toNat) r
    rwa [natToLE_length] at this
  rw [h4]
  show Except.ok
      (if leToNat (natToLE 4 (i % 4294967296).toNat) < 2147483648 then
        ((leToNat (natToLE 4 (i % 4294967296).toNat) : Nat) : Int)
      else ((leToNat (natToLE 4 (i % 4294967296).toNat) : Nat) : Int) -
        4294967296, r) = Except.ok (i, r)
  have h256 : (256 : Nat) ^ 4 = 4294967296 := by norm_num
  rw [leToNat_natToLE, h256]
  have hlt : (i % 4294967296).toNat < 4294967296 := by omega
  rw [Nat.mod_eq_of_lt hlt]
  split
  all_goals simp only [Except.ok.injEq, Prod.mk.injEq, and_true]
  all_goals omega

theorem u128_rt (n : Nat) (r : Bytes) (h : n < 2 ^ 128) :
    u128_from_bytes (u128_to_bytes n ++ r) = .ok (n, r) := by
  unfold u128_from_bytes u128_to_bytes
  have hr : readN 16 (natToLE 16 n ++ r) = .ok (natToLE 16 n, r) := by
    have := readN_append (natToLE 16 n) r
    rwa [natToLE_length] at this
  rw [hr]
  show Except.ok (leToNat (natToLE 16 n), r) = Except.ok (n, r)
  have h256 : (256 : Nat) ^ 16 = 2 ^ 128 := by norm_num
  rw [leToNat_natToLE, h256, Nat.mod_eq_of_lt h]

theorem u256_rt (n : Nat) (r : Bytes) (h : n < 2 ^ 256) :
    u256_from_bytes (u256_to_bytes n ++ r) = .ok (n, r) := by
  unfold u256_from_bytes u256_to_bytes
  have hr : readN 32 (natToLE 32 n ++ r) = .ok (natToLE 32 n, r) := by
    have := readN_append (natToLE 32 n) r
    rwa [natToLE_length] at this
  rw [hr]
  show Except.ok (leToNat (natToLE 32 n), r) = Except.ok (n, r)
  have h256 : (256 : Nat) ^ 32 = 2 ^ 256 := by norm_num
  rw [leToNat_natToLE, h256, Nat.mod_eq_of_lt h]

theorem u512_rt (n : Nat) (r : Bytes) (h : n < 2 ^ 512) :
    u512_from_bytes (u512_to_bytes n ++ r) = .ok (n, r) := by
  unfold u512_from_bytes u512_to_bytes
  have hr : readN 64 (natToLE 64 n ++ r) = .ok (natToLE 64 n, r) := by
    have := readN_append (natToLE 64 n) r
    rwa [natToLE_length] at this
  rw [hr]
  show Except.ok (leToNat (natToLE 64 n), r) = Except.ok (n, r)
  have h256 : (256 : Nat) ^ 64 = 2 ^ 512 := by norm_num
  rw [leToNat_natToLE, h256, Nat.mod_eq_of_lt h]

theorem vecU8_from_prefix (a r : Bytes) (h : a.length < 4294967296) :
    vecU8_from_bytes (u32_to_bytes a.length ++ (a ++ r)) = .ok (a, r) := by
  unfold vecU8_from_bytes
  rw [u32_rt a.length (a ++ r) h]
  show readN a.length (a ++ r) = .ok (a, r)
  exact readN_append a r

theorem vecU8_rt (a bs : Bytes) (h : vecU8_to_bytes a = .ok bs) (r : Bytes) :
    vecU8_from_bytes (bs ++ r) = .ok (a, r) := by
  unfold vecU8_to_bytes at h
  split at h
  · simp at h
  next hg =>
    simp only [Except.ok.injEq] at h
    subst h
    rw [List.append_assoc]
    exact vecU8_from_prefix a r (by unfold u32Max U32_SIZE at hg; omega)

theorem string_from_prefix (a r : Bytes) (h : a.length < 4294967296) :
    string_from_bytes (u32_to_bytes a.length ++ (a ++ r)) = .ok (a, r) := by
  unfold string_from_bytes
  rw [u32_rt a.length (a ++ r) h]
  show readN a.length (a ++ r) = .ok (a, r)
  exact readN_append a r

theorem string_rt (a bs : Bytes) (h : string_to_bytes a = .ok bs) (r : Bytes) :
    string_from_bytes (bs ++ r) = .ok (a, r) := by
  unfold string_to_bytes at h
  split at h
  · simp at h
  next hg =>
    simp only [Except.ok.injEq] at h
    subst h
    rw [List.append_assoc]
    exact string_from_prefix a r (by unfold u32Max U32_SIZE at hg; omega)

theorem accessRights_rt (a : AccessRights) (r : Bytes) :
    AccessRights.from_bytes (a.to_bytes ++ r) = .ok (a, r) := by
  cases a <;> rfl

theorem decodeList_map_flatten {α : Type}
    (enc : α → Bytes) (dec : Bytes → Except BytesreprError (α × Bytes)) :
    ∀ (l : List α), (∀ x ∈ l, ∀ r, dec (enc x ++ r) = .ok (x, r)) →
      ∀ r, decodeList dec l.length ((l.map enc).flatten ++ r) = .ok (l, r)
  | [], _, r => by simp [decodeList]
  | x :: xs, hd, r => by
      have hx := hd x (by simp)
      have hxs := decodeList_map_flatten enc dec xs
        (fun y hy => hd y (by simp [hy])) r
      simp only [List.map_cons, List.flatten_cons, List.length_cons,
        List.append_assoc]
      show (match dec (enc x ++ ((xs.map enc).flatten ++ r)) with
        | Except.error e => Except.error e
        | Except.ok (y, rest) =>
            match decodeList dec xs.length rest with
            | Except.error e => Except.error e
            | Except.ok (ys, rest2) => Except.ok (y :: ys, rest2)) =
        Except.ok (x :: xs, r)
      rw [hx]
      show (match decodeList dec xs.length ((xs.map enc).flatten ++ r) with
        | Except.error e => Except.error e
        | Except.ok (ys, rest2) => Except.ok (x :: ys, rest2)) =
        Except.ok (x :: xs, r)
      rw [hxs]

theorem decodeList_encodeAll {α : Type}
    (enc : α → Except BytesreprError Bytes)
    (dec : Bytes → Except BytesreprError (α × Bytes))
    (hdec : ∀ x bs, enc x = .ok bs → ∀ r, dec (bs ++ r) = .ok (x, r)) :
    ∀ (l : List α) (payload : Bytes), encodeAll enc l = .ok payload →
      ∀ r, decodeList dec l.length (payload ++ r) = .ok (l, r)
  | [], payload, h, r => by
      unfold encodeAll at h
      simp only [Except.ok.injEq] at h
      subst h
      simp [decodeList]
  | x :: xs, payload, h, r => by
      unfold encodeAll at h
      cases hE : enc x with
      | error e => rw [hE] at h; simp at h
      | ok b =>
          rw [hE] at h
          cases hE2 : encodeAll enc xs with
          | error e => rw [hE2] at h; simp at h
          | ok rest =>
              rw [hE2] at h
              simp only [Except.ok.injEq] at h
              subst h
              have hx := hdec x b hE ((rest ++ r))
              have hxs := decodeList_encodeAll enc dec hdec xs rest hE2 r
              simp only [List.length_cons, List.append_assoc]
              show (match dec (b ++ (rest ++ r)) with
                | Except.error e => Except.error e
                | Except.ok (y, rest') =>
                    match decodeList dec xs.length rest' with
                    | Except.error e => Except.error e
                    | Except.ok (ys, rest2) => Except.ok (y :: ys, rest2)) =
                Except.ok (x :: xs, r)
              rw [hx]
              show (match decodeList dec xs.length (rest ++ r) with
                | Except.error e => Except.error e
                | Except.ok (ys, rest2) => Except.ok (x :: ys, rest2)) =
                Except.ok (x :: xs, r)
              rw [hxs]

theorem vecI32_rt (arr : List Int) (bs : Bytes)
    (hwf : ∀ i ∈ arr, i32Ok i = true)
    (h : vecI32_to_bytes arr = .ok bs) (r : Bytes) :
    vecI32_from_bytes (bs ++ r) = .ok (arr, r) := by
  unfold vecI32_to_bytes at h
  split at h
  · simp at h
  next hg =>
    simp only [Except.ok.injEq] at h
    subst h
    unfold vecI32_from_bytes
    rw [List.append_assoc,
      u32_rt arr.length _ (by unfold u32Max U32_SIZE at hg; omega)]
    show decodeList i32_from_bytes arr.length
      ((arr.map i32_to_bytes).flatten ++ r) = .ok (arr, r)
    refine decodeList_map_flatten i32_to_bytes i32_from_bytes arr ?_ r
    intro x hx r'
    have := hwf x hx
    unfold i32Ok at this
    exact i32_rt x r' (by simp at this; omega) (by simp at this; omega)

theorem vecString_rt (arr : List Bytes) (bs : Bytes)
    (h : vecString_to_bytes arr = .ok bs) (r : Bytes) :
    vecString_from_bytes (bs ++ r) = .ok (arr, r) := by
  unfold vecString_to_bytes at h
  split at h
  · simp at h
  next hg =>
    cases hE : encodeAll string_to_bytes arr with
    | error e => rw [hE] at h; simp at h
    | ok payload =>
        rw [hE] at h
        simp only [Except.ok.injEq] at h
        subst h
        unfold vecString_from_bytes
        rw [List.append_assoc,
          u32_rt arr.length _ (by unfold u32Max U32_SIZE at hg; omega)]
        show decodeList string_from_bytes arr.length (payload ++ r) =
          .ok (arr, r)
        exact decodeList_encodeAll string_to_bytes string_from_bytes
          (fun x bs hx r' => string_rt x bs hx r') arr payload hE r

theorem accountRecord_rt (a : AccountRecord) (bs : Bytes)
    (h : AccountRecord.to_bytes a = .ok bs) (r : Bytes) :
    AccountRecord.from_bytes (bs ++ r) = .ok (a, r) := by
  unfold AccountRecord.to_bytes at h
  split at h
  · simp at h
  next hg =>
    simp only [Except.ok.injEq] at h
    subst h
    unfold AccountRecord.from_bytes
    rw [List.append_assoc,
      vecU8_from_prefix a.payload r (by unfold u32Max U32_SIZE at hg; omega)]

theorem contractRecord_rt (c : ContractRecord) (bs : Bytes)
    (h : ContractRecord.to_bytes c = .ok bs) (r : Bytes) :
    ContractRecord.from_bytes (bs ++ r) = .ok (c, r) := by
  unfold ContractRecord.to_bytes at h
  split at h
  · simp at h
  next hg =>
    simp only [Except.ok.injEq] at h
    subst h
    unfold ContractRecord.from_bytes
    rw [List.append_assoc,
      vecU8_from_prefix c.payload r (by unfold u32Max U32_SIZE at hg; omega)]

theorem key_rt (k : Key) (hwf : keyWF k = true) (bs : Bytes)
    (h : Key.to_bytes k = .ok bs) (r : Bytes) :
    Key.from_bytes (bs ++ r) = .ok (k, r) := by
  cases k with
  | Account addr =>
      have hlen : addr.length = 20 := by simpa [keyWF] using hwf
      simp only [Key.to_bytes, Except.ok.injEq] at h
      subst h
      have hv : vecU8_from_bytes (u32_to_bytes 20 ++ (addr ++ r)) =
          .ok (addr, r) := by
        rw [← hlen]
        exact vecU8_from_prefix addr r (by omega)
      simp only [List.cons_append, List.append_assoc]
      simp only [Key.from_bytes]
      rw [hv]
      simp [hlen]
  | Hash id1 =>
      have hlen : id1.length = 32 := by simpa [keyWF] using hwf
      simp only [Key.to_bytes, Except.ok.injEq] at h
      subst h
      have hv : readN 32 (id1 ++ r) = .ok (id1, r) := by
        rw [← hlen]
        exact readN_append id1 r
      simp only [List.cons_append]
      simp only [Key.from_bytes]
      rw [hv]
      simp
  | URef rf rights =>
      have hlen : rf.length = 32 := by simpa [keyWF] using hwf
      simp only [Key.to_bytes, Except.ok.injEq] at h
      subst h
      have hv : readN 32 (rf ++ (rights.to_bytes ++ r)) =
          .ok (rf, rights.to_bytes ++ r) := by
        rw [← hlen]
        exact readN_append rf (rights.to_bytes ++ r)
      simp only [List.cons_append, List.append_assoc]
      simp only [Key.from_bytes]
      rw [hv]
      simp [accessRights_rt]

theorem value_rt (v : Value) (hwf : valueWF v = true) (bs : Bytes)
    (h : Value.to_bytes v = .ok bs) (r : Bytes) :
    Value.from_bytes (bs ++ r) = .ok (v, r) := by
  cases v with
  | Int32 i =>
      have hr : i32Ok i = true := by simpa [valueWF] using hwf
      unfold i32Ok at hr
      simp only [Value.to_bytes, Except.ok.injEq] at h
      subst h
      have hv := i32_rt i r (by simp at hr; omega) (by simp at hr; omega)
      simp only [List.cons_append]
      simp only [Value.from_bytes]
      rw [hv]
      simp
  | UInt128 u =>
      have hr : u < 2 ^ 128 := by simpa [valueWF] using hwf
      simp only [Value.to_bytes, Except.ok.injEq] at h
      subst h
      have hv := u128_rt u r hr
      simp only [List.cons_append]
      simp only [Value.from_bytes]
      rw [hv]
      simp
  | UInt256 u =>
      have hr : u < 2 ^ 256 := by simpa [valueWF] using hwf
      simp only [Value.to_bytes, Except.ok.injEq] at h
      subst h
      have hv := u256_rt u r hr
      simp only [List.cons_append]
      simp only [Value.from_bytes]
      rw [hv]
      simp
  | UInt512 u =>
      have hr : u < 2 ^ 512 := by simpa [valueWF] using hwf
      simp only [Value.to_bytes, Except.ok.injEq] at h
      subst h
      have hv := u512_rt u r hr
      simp only [List.cons_append]
      simp only [Value.from_bytes]
      rw [hv]
      simp
  | ByteArray arr =>
      simp only [Value.to_bytes] at h
      split at h
      · simp at h
      cases hE : vecU8_to_bytes arr with
      | error e => rw [hE] at h; simp at h
      | ok b =>
          rw [hE] at h
          simp only [Except.ok.injEq] at h
          subst h
          have hv := vecU8_rt arr b hE r
          simp only [List.cons_append]
          simp only [Value.from_bytes]
          rw [hv]
          simp
  | ListInt32 arr =>
      have hr : ∀ i ∈ arr, i32Ok i = true := by
        have : arr.all i32Ok = true := by simpa [valueWF] using hwf
        simpa [List.all_eq_true] using this
      simp only [Value.to_bytes] at h
      split at h
      · simp at h
      cases hE : vecI32_to_bytes arr with
      | error e => rw [hE] at h; simp at h
      | ok b =>
          rw [hE] at h
          simp only [Except.ok.injEq] at h
          subst h
          have hv := vecI32_rt arr b hr hE r
          simp only [List.cons_append]
          simp only [Value.from_bytes]
          rw [hv]
          simp
  | String s =>
      simp only [Value.to_bytes] at h
      split at h
      · simp at h
      cases hE : string_to_bytes s with
      | error e => rw [hE] at h; simp at h
      | ok b =>
          rw [hE] at h
          simp only [Except.ok.injEq] at h
          subst h
          have hv := string_rt s b hE r
          simp only [List.cons_append]
          simp only [Value.from_bytes]
          rw [hv]
          simp
  | ListString arr =>
      simp only [Value.to_bytes] at h
      cases hE : vecString_to_bytes arr with
      | error e => rw [hE] at h; simp at h
      | ok b =>
          by_cases hg : u32Max - 1 ≤ b.length
          · rw [hE] at h; simp [hg] at h
          · rw [hE] at h
            simp only [hg, if_false, Except.ok.injEq, if_neg] at h
            subst h
            have hv := vecString_rt arr b hE r
            simp only [List.cons_append]
            simp only [Value.from_bytes]
            rw [hv]
            simp
    | NamedKey n k =>
      have hk : keyWF k = true := by simpa [valueWF] using hwf
      simp only [Value.to_bytes] at h
      split at h
      · simp at h
      cases hE : string_to_bytes n with
      | error e => rw [hE] at h; simp at h
      | ok nb =>
          rw [hE] at h
          cases hE2 : Key.to_bytes k with
          | error e => rw [hE2] at h; simp at h
          | ok kb =>
              rw [hE2] at h
              simp only [Except.ok.injEq] at h
              subst h
              have hv1 := string_rt n nb hE (kb ++ r)
              have hv2 := key_rt k hk kb hE2 r
              simp only [List.cons_append, List.append_assoc]
              simp only [Value.from_bytes]
              rw [hv1]
              simp [hv2]
  | Account a =>
      simp only [Value.to_bytes] at h
      cases hE : AccountRecord.to_bytes a with
      | error e => rw [hE] at h; simp at h
      | ok b =>
          by_cases hg : u32Max - 1 ≤ b.length
          · rw [hE] at h; simp [hg] at h
          · rw [hE] at h
            simp only [hg, if_false, Except.ok.injEq, if_neg] at h
            subst h
            have hv := accountRecord_rt a b hE r
            simp only [List.cons_append]
            simp only [Value.from_bytes]
            rw [hv]
            simp
    | Contract c =>
      simp only [Value.to_bytes] at h
      cases hE : ContractRecord.to_bytes c with
      | error e => rw [hE] at h; simp at h
      | ok b =>
          rw [hE] at h
          simp only [Except.ok.injEq] at h
          subst h
          have hv := contractRecord_rt c b hE r
          simp only [List.cons_append]
          simp only [Value.from_bytes]
          rw [hv]
          simp

theorem readN_err (n : Nat) (bs : Bytes) (e : BytesreprError)
    (h : readN n bs = .error e) : e = .earlyEndOfStream := by
  unfold readN at h
  split at h
  · simp at h
  · simp only [Except.error.injEq] at h
    exact h.symm

theorem u32_from_err (bs : Bytes) (e : BytesreprError)
    (h : u32_from_bytes bs = .error e) : e = .earlyEndOfStream := by
  unfold u32_from_bytes at h
  cases hE : readN 4 bs with
  | error e' =>
      rw [hE] at h
      simp only [Except.error.injEq] at h
      subst h
      exact readN_err _ _ _ hE
  | ok p => rw [hE] at h; simp at h

theorem i32_from_err (bs : Bytes) (e : BytesreprError)
    (h : i32_from_bytes bs = .error e) : e = .earlyEndOfStream := by
  unfold i32_from_bytes at h
  cases hE : readN 4 bs with
  | error e' =>
      rw [hE] at h
      simp only [Except.error.injEq] at h
      subst h
      exact readN_err _ _ _ hE
  | ok p => rw [hE] at h; simp at h

theorem u128_from_err (bs : Bytes) (e : BytesreprError)
    (h : u128_from_bytes bs = .error e) : e = .earlyEndOfStream := by
  unfold u128_from_bytes at h
  cases hE : readN 16 bs with
  | error e' =>
      rw [hE] at h
      simp only [Except.error.injEq] at h
      subst h
      exact readN_err _ _ _ hE
  | ok p => rw [hE] at h; simp at h

theorem u256_from_err (bs : Bytes) (e : BytesreprError)
    (h : u256_from_bytes bs = .error e) : e = .earlyEndOfStream := by
  unfold u256_from_bytes at h
  cases hE : readN 32 bs with
  | error e' =>
      rw [hE] at h
      simp only [Except.error.injEq] at h
      subst h
      exact readN_err _ _ _ hE
  | ok p => rw [hE] at h; simp at h

theorem u512_from_err (bs : Bytes) (e : BytesreprError)
    (h : u512_from_bytes bs = .error e) : e = .earlyEndOfStream := by
  unfold u512_from_bytes at h
  cases hE : readN 64 bs with
  | error e' =>
      rw [hE] at h
      simp only [Except.error.injEq] at h
      subst h
      exact readN_err _ _ _ hE
  | ok p => rw [hE] at h; simp at h

theorem vecU8_from_err (bs : Bytes) (e : BytesreprError)
    (h : vecU8_from_bytes bs = .error e) : e = .earlyEndOfStream := by
  unfold vecU8_from_bytes at h
  cases hE : u32_from_bytes bs with
  | error e' =>
      rw [hE] at h
      simp only [Except.error.injEq] at h
      subst h
      exact u32_from_err _ _ hE
  | ok p =>
      rw [hE] at h
      cases p with
      | mk n rest => exact readN_err _ _ _ h

theorem string_from_err (bs : Bytes) (e : BytesreprError)
    (h : string_from_bytes bs = .error e) : e = .earlyEndOfStream := by
  unfold string_from_bytes at h
  cases hE : u32_from_bytes bs with
  | error e' =>
      rw [hE] at h
      simp only [Except.error.injEq] at h
      subst h
      exact u32_from_err _ _ hE
  | ok p =>
      rw [hE] at h
      cases p with
      | mk n rest => exact readN_err _ _ _ h

theorem decodeList_err {α : Type}
    (dec : Bytes → Except BytesreprError (α × Bytes))
    (hdec : ∀ bs e, dec bs = .error e → e = .earlyEndOfStream) :
    ∀ (n : Nat) (bs : Bytes) (e : BytesreprError),
      decodeList dec n bs = .error e → e = .earlyEndOfStream
  | 0, bs, e, h => by simp [decodeList] at h
  | n + 1, bs, e, h => by
      unfold decodeList at h
      cases hE : dec bs with
      | error e' =>
          rw [hE] at h
          simp only [Except.error.injEq] at h
          subst h
          exact hdec _ _ hE
      | ok p =>
          rw [hE] at h
          cases p with
          | mk x rest =>
              replace h : (match decodeList dec n rest with
                | Except.error e => Except.error e
                | Except.ok (xs, rest2) => Except.ok (x :: xs, rest2)) =
                  Except.error e := h
              cases hE2 : decodeList dec n rest with
              | error e' =>
                  rw [hE2] at h
                  simp only [Except.error.injEq] at h
                  subst h
                  exact decodeList_err dec hdec n rest _ hE2
              | ok q => rw [hE2] at h; simp at h

theorem vecI32_from_err (bs : Bytes) (e : BytesreprError)
    (h : vecI32_from_bytes bs = .error e) : e = .earlyEndOfStream := by
  unfold vecI32_from_bytes at h
  cases hE : u32_from_bytes bs with
  | error e' =>
      rw [hE] at h
      simp only [Except.error.injEq] at h
      subst h
      exact u32_from_err _ _ hE
  | ok p =>
      rw [hE] at h
      cases p with
      | mk n rest => exact decodeList_err i32_from_bytes i32_from_err n rest e h

theorem vecString_from_err (bs : Bytes) (e : BytesreprError)
    (h : vecString_from_bytes bs = .error e) : e = .earlyEndOfStream := by
  unfold vecString_from_bytes at h
  cases hE : u32_from_bytes bs with
  | error e' =>
      rw [hE] at h
      simp only [Except.error.injEq] at h
      subst h
      exact u32_from_err _ _ hE
  | ok p =>
      rw [hE] at h
      cases p with
      | mk n rest =>
          exact decodeList_err string_from_bytes string_from_err n rest e h

theorem accountRecord_from_err (bs : Bytes) (e : BytesreprError)
    (h : AccountRecord.from_bytes bs = .error e) : e = .earlyEndOfStream := by
  unfold AccountRecord.from_bytes at h
  cases hE : vecU8_from_bytes bs with
  | error e' =>
      rw [hE] at h
      simp only [Except.error.injEq] at h
      subst h
      exact vecU8_from_err _ _ hE
  | ok p => rw [hE] at h; simp at h

theorem contractRecord_from_err (bs : Bytes) (e : BytesreprError)
    (h : ContractRecord.from_bytes bs = .error e) : e = .earlyEndOfStream := by
  unfold ContractRecord.from_bytes at h
  cases hE : vecU8_from_bytes bs with
  | error e' =>
      rw [hE] at h
      simp only [Except.error.injEq] at h
      subst h
      exact vecU8_from_err _ _ hE
  | ok p => rw [hE] at h; simp at h

theorem accessRights_formatting_iff (bs : Bytes) :
    AccessRights.from_bytes bs = .error .formattingError ↔
      ∃ b r, bs = b :: r ∧ (b < 1 ∨ 7 < b) := by
  cases bs with
  | nil => simp [AccessRights.from_bytes]
  | cons b r =>
      constructor
      · intro h
        refine ⟨b, r, rfl, ?_⟩
        by_contra hc
        push_neg at hc
        obtain ⟨h1, h7⟩ := hc
        simp only [AccessRights.from_bytes] at h
        interval_cases b <;> simp_all
      · rintro ⟨b', r', heq, hb⟩
        cases heq
        simp only [AccessRights.from_bytes]
        rw [if_neg (by omega), if_neg (by omega), if_neg (by omega),
          if_neg (by omega), if_neg (by omega), if_neg (by omega),
          if_neg (by omega)]

theorem key_formatting_iff (bs : Bytes) :
    Key.from_bytes bs = .error .formattingError ↔
      (∃ t r, bs = t :: r ∧ 2 < t) ∨
      (∃ r a rem, bs = 0 :: r ∧ vecU8_from_bytes r = .ok (a, rem) ∧
        a.length ≠ 20) ∨
      (∃ r a rem, bs = 2 :: r ∧ readN 32 r = .ok (a, rem) ∧
        AccessRights.from_bytes rem = .error .formattingError) := by
  cases bs with
  | nil => simp [Key.from_bytes]
  | cons t r =>
      constructor
      · intro h
        simp only [Key.from_bytes] at h
        by_cases h0 : t = 0
        · subst h0
          cases hE : vecU8_from_bytes r with
          | error e =>
              rw [hE] at h
              have he := vecU8_from_err _ _ hE
              simp_all
          | ok p =>
              rw [hE] at h
              cases p with
              | mk a rem =>
                  by_cases hlen : a.length = 20
                  · simp [hlen] at h
                  · exact Or.inr (Or.inl ⟨r, a, rem, rfl, hE, hlen⟩)
        by_cases h1 : t = 1
        · subst h1
          cases hE : readN 32 r with
          | error e =>
              rw [hE] at h
              have he := readN_err _ _ _ hE
              simp_all
          | ok p =>
              rw [hE] at h
              cases p with
              | mk a rem => simp at h
        by_cases h2 : t = 2
        · subst h2
          cases hE : readN 32 r with
          | error e =>
              rw [hE] at h
              have he := readN_err _ _ _ hE
              simp_all
          | ok p =>
              rw [hE] at h
              cases p with
              | mk a rem =>
                  replace h : (match AccessRights.from_bytes rem with
                    | Except.error e => Except.error e
                    | Except.ok (rights, rem2) =>
                        Except.ok (Key.URef a rights, rem2)) =
                      Except.error BytesreprError.formattingError := h
                  cases hE2 : AccessRights.from_bytes rem with
                  | error e =>
                      rw [hE2] at h
                      simp only [Except.error.injEq] at h
                      subst h
                      exact Or.inr (Or.inr ⟨r, a, rem, rfl, hE, hE2⟩)
                  | ok q =>
                      rw [hE2] at h
                      cases q with
                      | mk rights rem2 => simp at h
        · exact Or.inl ⟨t, r, rfl, by omega⟩
      · rintro (⟨t', r', heq, ht⟩ | ⟨r', a, rem, heq, hE, hlen⟩ |
          ⟨r', a, rem, heq, hE, hAR⟩)
        · cases heq
          simp only [Key.from_bytes]
          simp [show t ≠ 0 by omega, show t ≠ 1 by omega,
            show t ≠ 2 by omega]
        · cases heq
          simp only [Key.from_bytes]
          simp [hE, hlen]
        · cases heq
          simp only [Key.from_bytes]
          simp [hE, hAR]

theorem value_formatting_iff (bs : Bytes) :
    Value.from_bytes bs = .error .formattingError ↔
      (∃ t r, bs = t :: r ∧ 10 < t) ∨
      (∃ r n rem, bs = 6 :: r ∧ string_from_bytes r = .ok (n, rem) ∧
        Key.from_bytes rem = .error .formattingError) := by
  cases bs with
  | nil => simp [Value.from_bytes]
  | cons t r =>
      constructor
      · intro h
        simp only [Value.from_bytes] at h
        by_cases h0 : t = 0
        · subst h0
          cases hE : i32_from_bytes r with
          | error e =>
              rw [hE] at h
              have he := i32_from_err _ _ hE
              simp_all
          | ok p => rw [hE] at h; cases p; simp at h
        by_cases h8 : t = 8
        · subst h8
          cases hE : u128_from_bytes r with
          | error e =>
              rw [hE] at h
              have he := u128_from_err _ _ hE
              simp_all
          | ok p => rw [hE] at h; cases p; simp at h
        by_cases h9 : t = 9
        · subst h9
          cases hE : u256_from_bytes r with
          | error e =>
              rw [hE] at h
              have he := u256_from_err _ _ hE
              simp_all
          | ok p => rw [hE] at h; cases p; simp at h
        by_cases h10 : t = 10
        · subst h10
          cases hE : u512_from_bytes r with
          | error e =>
              rw [hE] at h
              have he := u512_from_err _ _ hE
              simp_all
          | ok p => rw [hE] at h; cases p; simp at h
        by_cases h1 : t = 1
        · subst h1
          cases hE : vecU8_from_bytes r with
          | error e =>
              rw [hE] at h
              have he := vecU8_from_err _ _ hE
              simp_all
          | ok p => rw [hE] at h; cases p; simp at h
        by_cases h2 : t = 2
        · subst h2
          cases hE : vecI32_from_bytes r with
          | error e =>
              rw [hE] at h
              have he := vecI32_from_err _ _ hE
              simp_all
          | ok p => rw [hE] at h; cases p; simp at h
        by_cases h3 : t = 3
        · subst h3
          cases hE : string_from_bytes r with
          | error e =>
              rw [hE] at h
              have he := string_from_err _ _ hE
              simp_all
          | ok p => rw [hE] at h; cases p; simp at h
        by_cases h4 : t = 4
        · subst h4
          cases hE : AccountRecord.from_bytes r with
          | error e =>
              rw [hE] at h
              have he := accountRecord_from_err _ _ hE
              simp_all
          | ok p => rw [hE] at h; cases p; simp at h
        by_cases h5 : t = 5
        · subst h5
          cases hE : ContractRecord.from_bytes r with
          | error e =>
              rw [hE] at h
              have he := contractRecord_from_err _ _ hE
              simp_all
          | ok p => rw [hE] at h; cases p; simp at h
        by_cases h6 : t = 6
        · subst h6
          cases hE : string_from_bytes r with
          | error e =>
              rw [hE] at h
              have he := string_from_err _ _ hE
              simp_all
          | ok p =>
              rw [hE] at h
              cases p with
              | mk name rem =>
                  replace h : (match Key.from_bytes rem with
                    | Except.error e => Except.error e
                    | Except.ok (key, rem2) =>
                        Except.ok (Value.NamedKey name key, rem2)) =
                      Except.error BytesreprError.formattingError := h
                  cases hE2 : Key.from_bytes rem with
                  | error e =>
                      rw [hE2] at h
                      simp only [Except.error.injEq] at h
                      subst h
                      exact Or.inr ⟨r, name, rem, rfl, hE, hE2⟩
                  | ok q =>
                      rw [hE2] at h
                      cases q with
                      | mk key rem2 => simp at h
        by_cases h7 : t = 7
        · subst h7
          cases hE : vecString_from_bytes r with
          | error e =>
              rw [hE] at h
              have he := vecString_from_err _ _ hE
              simp_all
          | ok p => rw [hE] at h; cases p; simp at h
        · exact Or.inl ⟨t, r, rfl, by omega⟩
      · rintro (⟨t', r', heq, ht⟩ | ⟨r', name, rem, heq, hE, hK⟩)
        · cases heq
          simp only [Value.from_bytes]
          simp [show t ≠ 0 by omega, show t ≠ 1 by omega,
            show t ≠ 2 by omega, show t ≠ 3 by omega,
            show t ≠ 4 by omega, show t ≠ 5 by omega,
            show t ≠ 6 by omega, show t ≠ 7 by omega,
            show t ≠ 8 by omega, show t ≠ 9 by omega,
            show t ≠ 10 by omega]
        · cases heq
          simp only [Value.from_bytes]
          simp [hE, hK]

theorem string_to_err (s : Bytes) (e : BytesreprError)
    (h : string_to_bytes s = .error e) : e = .outOfMemoryError := by
  unfold string_to_bytes at h
  split at h
  · simp only [Except.error.injEq] at h
    exact h.symm
  · simp at h

theorem string_to_len (s bs : Bytes) (h : string_to_bytes s = .ok bs) :
    bs.length = 4 + s.length := by
  unfold string_to_bytes at h
  split at h
  · simp at h
  · simp only [Except.ok.injEq] at h
    subst h
    simp [u32_to_bytes, natToLE_length]

theorem encodeAll_string_err : ∀ (l : List Bytes) (e : BytesreprError),
    encodeAll string_to_bytes l = .error e → e = .outOfMemoryError
  | [], e, h => by simp [encodeAll] at h
  | x :: xs, e, h => by
      unfold encodeAll at h
      cases hE : string_to_bytes x with
      | error e' =>
          rw [hE] at h
          simp only [Except.error.injEq] at h
          subst h
          exact string_to_err _ _ hE
      | ok b =>
          rw [hE] at h
          cases hE2 : encodeAll string_to_bytes xs with
          | error e' =>
              rw [hE2] at h
              simp only [Except.error.injEq] at h
              subst h
              exact encodeAll_string_err xs _ hE2
          | ok rest => rw [hE2] at h; simp at h

theorem encodeAll_string_len : ∀ (l : List Bytes) (bs : Bytes),
    encodeAll string_to_bytes l = .ok bs → 4 * l.length ≤ bs.length
  | [], bs, h => by simp
  | x :: xs, bs, h => by
      unfold encodeAll at h
      cases hE : string_to_bytes x with
      | error e' => rw [hE] at h; simp at h
      | ok b =>
          rw [hE] at h
          cases hE2 : encodeAll string_to_bytes xs with
          | error e' => rw [hE2] at h; simp at h
          | ok rest =>
              rw [hE2] at h
              simp only [Except.ok.injEq] at h
              subst h
              have h1 := string_to_len x b hE
              have h2 := encodeAll_string_len xs rest hE2
              simp only [List.length_append, List.length_cons]
              omega

theorem vecString_to_err (l : List Bytes) (e : BytesreprError)
    (h : vecString_to_bytes l = .error e) : e = .outOfMemoryError := by
  unfold vecString_to_bytes at h
  split at h
  · simp only [Except.error.injEq] at h
    exact h.symm
  · cases hE : encodeAll string_to_bytes l with
    | error e' =>
        rw [hE] at h
        simp only [Except.error.injEq] at h
        subst h
        exact encodeAll_string_err l _ hE
    | ok payload => rw [hE] at h; simp at h

theorem vecString_to_len (l : List Bytes) (bs : Bytes)
    (h : vecString_to_bytes l = .ok bs) : 4 + 4 * l.length ≤ bs.length := by
  unfold vecString_to_bytes at h
  split at h
  · simp at h
  · cases hE : encodeAll string_to_bytes l with
    | error e' => rw [hE] at h; simp at h
    | ok payload =>
        rw [hE] at h
        simp only [Except.ok.injEq] at h
        subst h
        have := encodeAll_string_len l payload hE
        simp only [List.length_append, u32_to_bytes, natToLE_length]
        omega

theorem cmpBytes_refl : ∀ l : Bytes, cmpBytes l l = .eq
  | [] => rfl
  | a :: as' => by simp [cmpBytes, cmpBytes_refl as']

/-- C1 (counterexample): the claim "merge(a,b) is the least upper bound of
`a` and `b` under `partial_compare`" fails at `a = ReadAdd`, `b = AddWrite`:
the merge is `ReadWrite`, but `partial_cmp ReadWrite ReadAdd = None`, so the
merge result is not even an upper bound of `a` under `partial_compare`. -/
theorem C1_counterexample :
    AccessRights.add .ReadAdd .AddWrite = .ReadWrite ∧
    ¬ AccessRights.geq (AccessRights.add .ReadAdd .AddWrite) .ReadAdd := by
  decide

/-- C1 (amended): `merge` is the least upper bound with respect to the order
induced by `merge` itself (`c` absorbs `d` when `c.add d = c`): `merge a b`
absorbs both arguments, and any `c` absorbing both `a` and `b` absorbs
`merge a b`.  Under the hand-written `partial_compare` the law fails (see
the counterexample). -/
theorem C1_merge_lub :
    ∀ a b : AccessRights,
      (a.add b).add a = a.add b ∧ (a.add b).add b = a.add b ∧
      ∀ c : AccessRights, c.add a = c → c.add b = c → c.add (a.add b) = c := by
  decide

/-- C1 (witness): the least-upper-bound law instantiated at
`a = Read`, `b = Write`, `c = ReadWrite`. -/
theorem C1_witness :
    ((AccessRights.Read.add .Write).add .Read = AccessRights.Read.add .Write) ∧
    ((AccessRights.Read.add .Write).add .Write =
      AccessRights.Read.add .Write) ∧
    (AccessRights.ReadWrite.add (AccessRights.Read.add .Write) =
      .ReadWrite) :=
  ⟨(C1_merge_lub .Read .Write).1, (C1_merge_lub .Read .Write).2.1,
    (C1_merge_lub .Read .Write).2.2 .ReadWrite (by decide) (by decide)⟩

/-- C2 (counterexample): the claim asserts `ReadAdd < ReadWrite`, but the
source's `partial_cmp` deliberately returns `None` on that pair
(`(ReadAdd, ReadWrite) => None` in `key.rs`). -/
theorem C2_counterexample :
    AccessRights.partial_cmp .ReadAdd .ReadWrite = none ∧
    AccessRights.partial_cmp .ReadAdd .ReadWrite ≠ some .lt := by
  decide

/-- C2 (amended): the order realized by `partial_cmp`: `Eqv` is equal to
itself and strictly below every other value; `Read < ReadAdd`,
`Read < ReadWrite`, `Add < ReadAdd`, `Add < AddWrite`, `Add < ReadWrite`,
`Write < ReadWrite`, `Write < AddWrite`; every element equals itself; and
exactly eight unordered pairs are incomparable: the seven listed by the
claim plus `ReadAdd`/`ReadWrite` (so `ReadAdd < ReadWrite` does not hold). -/
theorem C2_order_table :
    (∀ a : AccessRights, AccessRights.partial_cmp .Eqv a =
      if a = .Eqv then some .eq else some .lt) ∧
    (∀ a : AccessRights, AccessRights.partial_cmp a .Eqv =
      if a = .Eqv then some .eq else some .gt) ∧
    (AccessRights.partial_cmp .Read .ReadAdd = some .lt) ∧
    (AccessRights.partial_cmp .Read .ReadWrite = some .lt) ∧
    (AccessRights.partial_cmp .Add .ReadAdd = some .lt) ∧
    (AccessRights.partial_cmp .Add .AddWrite = some .lt) ∧
    (AccessRights.partial_cmp .Add .ReadWrite = some .lt) ∧
    (AccessRights.partial_cmp .Write .ReadWrite = some .lt) ∧
    (AccessRights.partial_cmp .Write .AddWrite = some .lt) ∧
    (∀ a : AccessRights, a.partial_cmp a = some .eq) ∧
    (∀ a b : AccessRights, AccessRights.partial_cmp a b = none ↔
      (a, b) ∈ incomparablePairs) := by
  decide

/-- C7: the merge operation of `impl Add for AccessRights` is commutative,
associative, idempotent, and has `Eqv` as a two-sided identity. -/
theorem C7_merge_algebra :
    (∀ a b : AccessRights, a.add b = b.add a) ∧
    (∀ a b c : AccessRights, (a.add b).add c = a.add (b.add c)) ∧
    (∀ a : AccessRights, a.add a = a) ∧
    (∀ a : AccessRights, AccessRights.Eqv.add a = a ∧ a.add .Eqv = a) := by
  decide

/-- C10: the hand-written `partial_cmp` is a coherent partial comparison:
reflexive (`partial_cmp a a = Equal`), and swapping the arguments exchanges
`Less` and `Greater`, preserves `Equal`, and preserves incomparability. -/
theorem C10_partial_cmp_coherent :
    (∀ a : AccessRights, a.partial_cmp a = some .eq) ∧
    (∀ a b : AccessRights,
      (a.partial_cmp b = some .lt ↔ b.partial_cmp a = some .gt) ∧
      (a.partial_cmp b = some .eq ↔ b.partial_cmp a = some .eq) ∧
      (a.partial_cmp b = none ↔ b.partial_cmp a = none)) := by
  decide

/-- C3 (counterexample): the unconditional round-trip claim fails on a
`ByteArray` whose element count reaches the overflow guard's margin
(`u32::MAX - 5` elements): its encoding is rejected with `OutOfMemory`, so
`from_bytes(to_bytes(x))` does not succeed. -/
theorem C3_counterexample :
    Value.to_bytes (.ByteArray (List.replicate 4294967290 0)) =
      .error .outOfMemoryError ∧
    ¬ ∃ bs, Value.to_bytes (.ByteArray (List.replicate 4294967290 0)) =
      .ok bs ∧
      Value.from_bytes bs =
        .ok (.ByteArray (List.replicate 4294967290 0), []) := by
  have hc : u32Max - U8_SIZE - U32_SIZE ≤
      (List.replicate 4294967290 (0 : Nat)).length := by
    simp only [List.length_replicate]
    norm_num [u32Max, U8_SIZE, U32_SIZE]
  have h1 : Value.to_bytes (.ByteArray (List.replicate 4294967290 0)) =
      .error .outOfMemoryError := by
    simp only [Value.to_bytes]
    rw [if_pos hc]
  refine ⟨h1, ?_⟩
  rintro ⟨bs, h2, _⟩
  rw [h1] at h2
  cases h2

/-- C3 (amended): the round trip holds for every well-formed `Key` (its
encoding always succeeds) and for every well-formed `Value` whose encoding
is not rejected by an overflow guard: decoding the encoding returns exactly
the original value with an empty remainder. -/
theorem C3_roundtrip :
    (∀ k : Key, keyWF k = true →
      ∃ bs, Key.to_bytes k = .ok bs ∧ Key.from_bytes bs = .ok (k, [])) ∧
    (∀ v : Value, valueWF v = true → ∀ bs, Value.to_bytes v = .ok bs →
      Value.from_bytes bs = .ok (v, [])) := by
  constructor
  · intro k hwf
    cases hE : Key.to_bytes k with
    | error e => cases k <;> simp [Key.to_bytes] at hE
    | ok bs =>
        refine ⟨bs, rfl, ?_⟩
        have h := key_rt k hwf bs hE []
        simpa using h
  · intro v hwf bs hE
    have h := value_rt v hwf bs hE []
    simpa using h

/-- C3 (witness): the round trip applied to the key
`URef([0xAA; 32], ReadWrite)` and to the value
`NamedKey("", URef([0xAA; 32], ReadWrite))`. -/
theorem C3_witness :
    (∃ bs, Key.to_bytes (.URef (List.replicate 32 170) .ReadWrite) =
      .ok bs ∧
      Key.from_bytes bs =
        .ok (.URef (List.replicate 32 170) .ReadWrite, [])) ∧
    Value.from_bytes
        (6 :: (u32_to_bytes 0 ++
          (2 :: (List.replicate 32 170 ++ [6])))) =
      .ok (.NamedKey [] (.URef (List.replicate 32 170) .ReadWrite), []) :=
  ⟨C3_roundtrip.1 (.URef (List.replicate 32 170) .ReadWrite) (by decide),
    C3_roundtrip.2 (.NamedKey [] (.URef (List.replicate 32 170) .ReadWrite))
      (by decide) _ (by decide)⟩

/-- C4: the `Key` encoding is byte-exact: tag `0` for `Account` followed by
the 4-byte length prefix of 20 and the id bytes; tag `1` for `Hash`
followed by the raw id; tag `2` for `URef` (`CapabilityRef`) followed by
the raw id and a single `AccessRights` tag byte in `1..7`; and the concrete
scenario: `URef([0xAA; 32], ReadWrite)` encodes to `[2] ++ [0xAA; 32] ++
[6]`, which decodes back to the original with empty remainder. -/
theorem C4_key_encoding :
    (∀ addr : Bytes, Key.to_bytes (.Account addr) =
      .ok (0 :: (u32_to_bytes 20 ++ addr))) ∧
    (u32_to_bytes 20 = [20, 0, 0, 0]) ∧
    (∀ h : Bytes, Key.to_bytes (.Hash h) = .ok (1 :: h)) ∧
    (∀ rf : Bytes, ∀ ar : AccessRights, Key.to_bytes (.URef rf ar) =
      .ok (2 :: (rf ++ ar.to_bytes))) ∧
    (∀ ar : AccessRights, ∃ t, ar.to_bytes = [t] ∧ 1 ≤ t ∧ t ≤ 7) ∧
    (Key.to_bytes (.URef (List.replicate 32 170) .ReadWrite) =
      .ok (2 :: (List.replicate 32 170 ++ [6]))) ∧
    (Key.from_bytes (2 :: (List.replicate 32 170 ++ [6])) =
      .ok (.URef (List.replicate 32 170) .ReadWrite, [])) := by
  refine ⟨fun _ => rfl, rfl, fun _ => rfl, fun _ _ => rfl, ?_,
    by decide, by decide⟩
  intro ar
  cases ar <;> exact ⟨_, rfl, by decide, by decide⟩

/-- C5: encoding a `ByteArray`, `String`, `ListInt32` or `ListString` value
whose element count is at least `u32::MAX - 5` (the tag-plus-length-prefix
margin below `u32::MAX`) fails with `OutOfMemoryError`; no output is
produced (the result is exactly the error). -/
theorem C5_overflow_guard :
    (∀ arr : Bytes, 4294967290 ≤ arr.length →
      Value.to_bytes (.ByteArray arr) = .error .outOfMemoryError) ∧
    (∀ s : Bytes, 4294967290 ≤ s.length →
      Value.to_bytes (.String s) = .error .outOfMemoryError) ∧
    (∀ arr : List Int, 4294967290 ≤ arr.length →
      Value.to_bytes (.ListInt32 arr) = .error .outOfMemoryError) ∧
    (∀ arr : List Bytes, 4294967290 ≤ arr.length →
      Value.to_bytes (.ListString arr) = .error .outOfMemoryError) := by
  refine ⟨?_, ?_, ?_, ?_⟩
  · intro arr h
    simp only [Value.to_bytes]
    rw [if_pos (by unfold u32Max U8_SIZE U32_SIZE; omega)]
  · intro s h
    simp only [Value.to_bytes]
    rw [if_pos (by unfold u32Max U8_SIZE U32_SIZE; omega)]
  · intro arr h
    simp only [Value.to_bytes]
    rw [if_pos (by unfold u32Max U8_SIZE U32_SIZE; omega)]
  · intro arr h
    simp only [Value.to_bytes]
    cases hE : vecString_to_bytes arr with
    | error e =>
        have hOOM := vecString_to_err arr e hE
        subst hOOM
        rfl
    | ok b =>
        have hlen := vecString_to_len arr b hE
        show (if u32Max - 1 ≤ b.length then
            Except.error BytesreprError.outOfMemoryError
          else Except.ok (7 :: b)) =
          Except.error BytesreprError.outOfMemoryError
        rw [if_pos (by unfold u32Max; omega)]

/-- C5 (witness): the guard applied to a byte array, a string, an `i32`
list and a string list of exactly `u32::MAX - 5` elements. -/
theorem C5_witness :
    Value.to_bytes (.ByteArray (List.replicate 4294967290 7)) =
      .error .outOfMemoryError ∧
    Value.to_bytes (.String (List.replicate 4294967290 65)) =
      .error .outOfMemoryError ∧
    Value.to_bytes (.ListInt32 (List.replicate 4294967290 (0 : Int))) =
      .error .outOfMemoryError ∧
    Value.to_bytes (.ListString (List.replicate 4294967290 ([] : Bytes))) =
      .error .outOfMemoryError :=
  ⟨C5_overflow_guard.1 _ (by simp only [List.length_replicate, le_refl]),
    C5_overflow_guard.2.1 _ (by simp only [List.length_replicate, le_refl]),
    C5_overflow_guard.2.2.1 _ (by simp only [List.length_replicate, le_refl]),
    C5_overflow_guard.2.2.2 _ (by simp only [List.length_replicate, le_refl])⟩

/-- C6 (counterexample): decoding can fail with `FormattingError` even when
the leading tag byte is valid and no account-length check is involved: a
`URef` key whose embedded `AccessRights` byte is `0` (the input starts with
the known `Key` tag `2`, so the claim's "exactly when" characterization is
violated). -/
theorem C6_counterexample :
    Key.from_bytes (2 :: (List.replicate 32 0 ++ [0])) =
      .error .formattingError ∧
    ¬ ((∃ t r, (2 :: (List.replicate 32 0 ++ [0]) : Bytes) = t :: r ∧
        2 < t) ∨
      (∃ r a rem, (2 :: (List.replicate 32 0 ++ [0]) : Bytes) = 0 :: r ∧
        vecU8_from_bytes r = .ok (a, rem) ∧ a.length ≠ 20)) := by
  constructor
  · decide
  · rintro (⟨t, r, heq, ht⟩ | ⟨r, a, rem, heq, _, _⟩)
    · simp only [List.cons.injEq] at heq
      omega
    · simp at heq

/-- C6 (amended): decoding fails with `FormattingError` exactly when the
tag byte of the value being decoded at that position is unknown
(`AccessRights`: outside `1..7`; `Key`: outside `0..2`; `Value`: outside
`0..10`), or a decoded `Account` id does not have length 20, or a nested
component decode — the `AccessRights` inside a `URef` key, or the `Key`
inside a `NamedKey` value — itself fails with `FormattingError`. -/
theorem C6_formatting_exact :
    (∀ bs, AccessRights.from_bytes bs = .error .formattingError ↔
      ∃ b r, bs = b :: r ∧ (b < 1 ∨ 7 < b)) ∧
    (∀ bs, Key.from_bytes bs = .error .formattingError ↔
      (∃ t r, bs = t :: r ∧ 2 < t) ∨
      (∃ r a rem, bs = 0 :: r ∧ vecU8_from_bytes r = .ok (a, rem) ∧
        a.length ≠ 20) ∨
      (∃ r a rem, bs = 2 :: r ∧ readN 32 r = .ok (a, rem) ∧
        AccessRights.from_bytes rem = .error .formattingError)) ∧
    (∀ bs, Value.from_bytes bs = .error .formattingError ↔
      (∃ t r, bs = t :: r ∧ 10 < t) ∨
      (∃ r n rem, bs = 6 :: r ∧ string_from_bytes r = .ok (n, rem) ∧
        Key.from_bytes rem = .error .formattingError)) :=
  ⟨accessRights_formatting_iff, key_formatting_iff, value_formatting_iff⟩

/-- C8: the hand-written total order on `Key` compares two `URef` keys with
equal ids as `Equal` regardless of their access rights, although such keys
are structurally unequal when the rights differ; in general the order is
determined only by the variant rank (`Account < Hash < URef`) and the
lexicographic comparison of the id bytes. -/
theorem C8_ord_ignores_rights :
    (∀ id : Bytes, ∀ r1 r2 : AccessRights,
      Key.cmp (.URef id r1) (.URef id r2) = .eq) ∧
    (∀ id : Bytes, ∀ r1 r2 : AccessRights, r1 ≠ r2 →
      Key.URef id r1 ≠ Key.URef id r2) ∧
    (∀ i1 i2 : Bytes, ∀ r1 r2 : AccessRights,
      Key.cmp (.URef i1 r1) (.URef i2 r2) = cmpBytes i1 i2) ∧
    (∀ a1 a2 : Bytes, Key.cmp (.Account a1) (.Account a2) =
      cmpBytes a1 a2) ∧
    (∀ h1 h2 : Bytes, Key.cmp (.Hash h1) (.Hash h2) = cmpBytes h1 h2) ∧
    (∀ a h : Bytes, Key.cmp (.Account a) (.Hash h) = .lt) ∧
    (∀ a i : Bytes, ∀ r : AccessRights,
      Key.cmp (.Account a) (.URef i r) = .lt) ∧
    (∀ h i : Bytes, ∀ r : AccessRights,
      Key.cmp (.Hash h) (.URef i r) = .lt) ∧
    (∀ h a : Bytes, Key.cmp (.Hash h) (.Account a) = .gt) ∧
    (∀ i a : Bytes, ∀ r : AccessRights,
      Key.cmp (.URef i r) (.Account a) = .gt) ∧
    (∀ i h : Bytes, ∀ r : AccessRights,
      Key.cmp (.URef i r) (.Hash h) = .gt) := by
  refine ⟨fun id r1 r2 => cmpBytes_refl id, ?_, fun _ _ _ _ => rfl,
    fun _ _ => rfl, fun _ _ => rfl, fun _ _ => rfl, fun _ _ _ => rfl,
    fun _ _ _ => rfl, fun _ _ => rfl, fun _ _ _ => rfl, fun _ _ _ => rfl⟩
  intro id r1 r2 hne h
  injection h with h1 h2
  exact hne h2

/-- C8 (witness): two `URef` keys with the same id but `Read` versus
`Write` rights are `cmp`-equal yet structurally unequal. -/
theorem C8_witness :
    Key.cmp (.URef (List.replicate 32 1) .Read)
        (.URef (List.replicate 32 1) .Write) = .eq ∧
    Key.URef (List.replicate 32 1) .Read ≠
      Key.URef (List.replicate 32 1) .Write :=
  ⟨C8_ord_ignores_rights.1 _ _ _,
    C8_ord_ignores_rights.2.1 _ _ _ (by decide)⟩

/-- C9 (counterexample): the `(String, Key)` narrowing conversion does not
report `type_string` on mismatch: its error type is the unit type, so
converting an `Int32` value yields the contentless `Err(())` even though
the value's `type_string` is `"Int32"`. -/
theorem C9_counterexample :
    Value.try_from_string_key (Value.Int32 0) = .error () ∧
    (Value.Int32 0).type_string = "Int32" :=
  ⟨rfl, rfl⟩

/-- C9 (amended): wrapping a native value into a `Value` always succeeds
for every variant; each of the ten macro-generated narrowing conversions
fails with the value's `type_string` when the runtime variant differs; the
`NamedKey`-to-`(String, Key)` conversion also fails on mismatch, but with a
unit error that carries no type name. -/
theorem C9_conversions :
    (∀ x : Int, Value.from_i32 x = Value.Int32 x) ∧
    (∀ x : Nat, Value.from_u128 x = Value.UInt128 x) ∧
    (∀ x : Nat, Value.from_u256 x = Value.UInt256 x) ∧
    (∀ x : Nat, Value.from_u512 x = Value.UInt512 x) ∧
    (∀ x : Bytes, Value.from_vec_u8 x = Value.ByteArray x) ∧
    (∀ x : List Int, Value.from_vec_i32 x = Value.ListInt32 x) ∧
    (∀ x : List Bytes, Value.from_vec_string x = Value.ListString x) ∧
    (∀ x : Bytes, Value.from_string x = Value.String x) ∧
    (∀ x : AccountRecord, Value.from_account x = Value.Account x) ∧
    (∀ x : ContractRecord, Value.from_contract x = Value.Contract x) ∧
    (∀ t : Bytes × Key, Value.from_string_key t = Value.NamedKey t.1 t.2) ∧
    (∀ v : Value, (∀ i, v ≠ Value.Int32 i) →
      Value.try_from_i32 v = .error v.type_string) ∧
    (∀ v : Value, (∀ n, v ≠ Value.UInt128 n) →
      Value.try_from_u128 v = .error v.type_string) ∧
    (∀ v : Value, (∀ n, v ≠ Value.UInt256 n) →
      Value.try_from_u256 v = .error v.type_string) ∧
    (∀ v : Value, (∀ n, v ≠ Value.UInt512 n) →
      Value.try_from_u512 v = .error v.type_string) ∧
    (∀ v : Value, (∀ b, v ≠ Value.ByteArray b) →
      Value.try_from_vec_u8 v = .error v.type_string) ∧
    (∀ v : Value, (∀ l, v ≠ Value.ListInt32 l) →
      Value.try_from_vec_i32 v = .error v.type_string) ∧
    (∀ v : Value, (∀ l, v ≠ Value.ListString l) →
      Value.try_from_vec_string v = .error v.type_string) ∧
    (∀ v : Value, (∀ s, v ≠ Value.String s) →
      Value.try_from_string v = .error v.type_string) ∧
    (∀ v : Value, (∀ a, v ≠ Value.Account a) →
      Value.try_from_account v = .error v.type_string) ∧
    (∀ v : Value, (∀ c, v ≠ Value.Contract c) →
      Value.try_from_contract v = .error v.type_string) ∧
    (∀ v : Value, (∀ n k, v ≠ Value.NamedKey n k) →
      Value.try_from_string_key v = .error ()) := by
  refine ⟨fun _ => rfl, fun _ => rfl, fun _ => rfl, fun _ => rfl,
    fun _ => rfl, fun _ => rfl, fun _ => rfl, fun _ => rfl, fun _ => rfl,
    fun _ => rfl, fun _ => rfl, ?_, ?_, ?_, ?_, ?_, ?_, ?_, ?_, ?_, ?_, ?_⟩
  all_goals
    intro v hv
    cases v <;> first
      | rfl
      | exact absurd rfl (hv _)
      | exact absurd rfl (hv _ _)

/-- C9 (witness): the conversions applied at concrete values: wrapping `7`
succeeds, narrowing a `String` value to `i32` reports `"String"`, and
narrowing an `Int32` value to `(String, Key)` yields the unit error. -/
theorem C9_witness :
    Value.from_i32 7 = Value.Int32 7 ∧
    Value.try_from_i32 (Value.String []) = .error "String" ∧
    Value.try_from_string_key (Value.String []) = .error () :=
  ⟨C9_conversions.1 7,
    C9_conversions.2.2.2.2.2.2.2.2.2.2.2.1 (Value.String [])
      (fun i h => Value.noConfusion h),
    C9_conversions.2.2.2.2.2.2.2.2.2.2.2.2.2.2.2.2.2.2.2.2.2
      (Value.String []) (fun n k h => Value.noConfusion h)⟩
